import Mathlib

/-!
Shallow embedding of the `nrofs` read-only archive filesystem:
the binary container parser (`src/rust/src/lib.rs`) and the FUSE
adapter (`src/fuse/src/main.rs`), with theorems checking the spec's
claims against the code.

Bytes are modelled as natural numbers (< 256 where it matters); a
backing store is a total function from absolute byte offset to byte.
Machine integers are `Nat`/`Int` with explicit wrap at the width where
the source can overflow (release semantics: wrapping).
-/

namespace Nrofs

/-- `const MAGIC: [u8; 8] = *b"NrRdOnly"` as byte values. -/
def MAGIC : List Nat := [78, 114, 82, 100, 79, 110, 108, 121]

/-- `const VERSION: u8 = 0`. -/
def VERSION : Nat := 0

/-- `u32::from_le_bytes` of the 4 bytes of `d` starting at position `k`. -/
def le32At (d : List Nat) (k : Nat) : Nat :=
  d.getD k 0 + 2 ^ 8 * d.getD (k + 1) 0 + 2 ^ 16 * d.getD (k + 2) 0
    + 2 ^ 24 * d.getD (k + 3) 0

/-- Errors of `Header::load`, mirroring `ParseHeaderError<R>` (the I/O
error payload is dropped: `other` stands for `Other(R)`). -/
inductive ParseHeaderError where
  | badMagic
  | unsupportedVersion
  | other
deriving DecidableEq, Repr

/-- `struct Header { block_size: u8, file_count: u32 }`. -/
structure Header where
  block_size : Nat
  file_count : Nat
deriving DecidableEq, Repr

/-- `struct Entry { filename_addr: u32, block_addr: u32, file_size: u32 }`. -/
structure Entry where
  filename_addr : Nat
  block_addr : Nat
  file_size : Nat
deriving DecidableEq, Repr

/-- `fn parse_header(d: [u8; 16])`: magic check first, then version,
then extract `(block_size, file_count)` with the count little-endian
at bytes 12..16. -/
def parse_header (d : List Nat) : Except ParseHeaderError (Nat × Nat) :=
  if d.take 8 ≠ MAGIC then .error .badMagic
  else if d.getD 8 0 ≠ VERSION then .error .unsupportedVersion
  else .ok (d.getD 9 0, le32At d 12)

/-- `fn parse_entry(d: [u8; 12])`: three consecutive little-endian u32s. -/
def parse_entry (d : List Nat) : Entry :=
  { filename_addr := le32At d 0, block_addr := le32At d 4, file_size := le32At d 8 }

/-- `Header::load`: the injected reader either fails (`none`, giving the
distinct `Other` error) or yields the 16 header bytes, which are parsed. -/
def Header.load (io : Option (List Nat)) : Except ParseHeaderError Header :=
  match io with
  | none => .error .other
  | some b =>
    match parse_header b with
    | .error e => .error e
    | .ok (block_size, file_count) => .ok { block_size, file_count }

/-- The three I/O primitives of `enum Op` (a read is logged by length;
the bytes come from the store). -/
inductive Op where
  | seek (p : Nat)
  | advance (d : Int)
  | read (n : Nat)
deriving DecidableEq, Repr

/-- The backing stream: a byte store plus the single seek cursor. -/
structure Sio where
  store : Nat → Nat
  pos : Nat

/-- `Op::Read(buf)` of `n` bytes: returns the bytes at the cursor and
advances it. -/
def Sio.readBytes (st : Sio) (n : Nat) : List Nat × Sio :=
  ((List.range n).map fun k => st.store (st.pos + k), { st with pos := st.pos + n })

/-- `fn get(index, io)` (lib.rs): seek to `16 + index*12`, read 12 bytes,
`parse_entry` them. Also returns the trace of I/O ops performed. -/
def getEntry (st : Sio) (index : Nat) : Entry × Sio × List Op :=
  let st1 : Sio := { st with pos := 16 + 12 * index }
  let (b, st2) := st1.readBytes 12
  (parse_entry b, st2, [.seek (16 + 12 * index), .read 12])

/-- `Header::get`: the bound check `index < file_count` guards the fetch. -/
def Header.get (h : Header) (st : Sio) (index : Nat) :
    Option (Entry × Sio × List Op) :=
  if index < h.file_count then some (getEntry st index) else none

/-- `struct Iter { offset: u32, count: u32 }` (the injected `io` is
replaced by explicit `Sio` threading). -/
structure Iter where
  offset : Nat
  count : Nat
deriving DecidableEq, Repr

/-- `Iter::next`: fetch the entry at `offset` and bump it, while
`offset < count`. -/
def Iter.next (it : Iter) (st : Sio) : Option Entry × Iter × Sio × List Op :=
  if it.offset < it.count then
    let (e, st2, tr) := getEntry st it.offset
    (some e, { it with offset := it.offset + 1 }, st2, tr)
  else
    (none, it, st, [])

/-- `Iter::nth(n)`: `offset = offset.saturating_add(min n u32::MAX)` then
`next()` — the skipped records are never read. -/
def Iter.nth (it : Iter) (st : Sio) (n : Nat) : Option Entry × Iter × Sio × List Op :=
  let n2 := min n (2 ^ 32 - 1)
  Iter.next { it with offset := min (it.offset + n2) (2 ^ 32 - 1) } st

/-- `Header::iter`: seek to 16 and start the cursor at 0. -/
def Header.iter (h : Header) (st : Sio) : Iter × Sio × List Op :=
  ({ offset := 0, count := h.file_count }, { st with pos := 16 }, [.seek 16])

/-- Drain the iterator, collecting the yielded entries (fuel = the
remaining length, which `next` decreases). -/
def iterDrain : Nat → Iter → Sio → List Entry
  | 0, _, _ => []
  | fuel + 1, it, st =>
    match it.next st with
    | (some e, it2, st2, _) => e :: iterDrain fuel it2 st2
    | (none, _, _, _) => []

/-- All entries yielded from a fresh `Header::iter`. -/
def Header.iterAll (h : Header) (st : Sio) : List Entry :=
  let (it, st2, _) := h.iter st
  iterDrain (it.count - it.offset) it st2

/-- `Entry::offset`: `u64::from(block_addr) << header.block_size` with
u64 release semantics — the shift amount is taken mod 64 and the result
mod `2^64` (bits shifted out are lost). -/
def Entry.offset (e : Entry) (h : Header) : Nat :=
  (e.block_addr <<< (h.block_size % 64)) % 2 ^ 64

/-- `fn read_string` driven by `Entry::name`: at `filename_addr`, one
length byte then that many raw name bytes. -/
def read_string (store : Nat → Nat) (addr : Nat) : List Nat :=
  (List.range (store addr)).map fun k => store (addr + 1 + k)

/-- `enum Node { File(u32), Dir(u32) }`. -/
inductive Node where
  | file (n : Nat)
  | dir (n : Nat)
deriving DecidableEq, Repr

/-- `Node::to_ino`: `1 + (n | 1 << 63)` for a file, `1 + n` for a dir. -/
def Node.to_ino : Node → Nat
  | .file n => 1 + (n ||| 2 ^ 63)
  | .dir n => 1 + n

/-- `Node::to_ty` as a flag: `true` for `Directory`. -/
def Node.isDir : Node → Bool
  | .file _ => false
  | .dir _ => true

/-- A directory's map, `BTreeMap<Box<[u8]>, Node>`: an association list
kept sorted by key in ascending byte-lexicographic order. -/
abbrev DirMap := List (List Nat × Node)

/-- Strict lexicographic order on byte-sequence keys (Rust `[u8]` `Ord`:
a proper prefix is smaller). -/
def keyLt : List Nat → List Nat → Bool
  | _, [] => false
  | [], _ :: _ => true
  | a :: as, b :: bs => if a < b then true else if b < a then false else keyLt as bs

/-- `BTreeMap::get`. -/
def lookupKey : DirMap → List Nat → Option Node
  | [], _ => none
  | (k2, v2) :: rest, k => if k = k2 then some v2 else lookupKey rest k

/-- Put `k ↦ v` into the map (insert new key in sorted position, or
replace the value at an existing key). -/
def setKey : DirMap → List Nat → Node → DirMap
  | [], k, v => [(k, v)]
  | (k2, v2) :: rest, k, v =>
    if k = k2 then (k, v) :: rest
    else if keyLt k k2 then (k, v) :: (k2, v2) :: rest
    else (k2, v2) :: setKey rest k v

/-- Replace position `di` of the directory list. -/
def setNth (dirs : List DirMap) (di : Nat) (d : DirMap) : List DirMap :=
  dirs.set di d

/-- The component walk of `Fs::new` for one entry: `i` is the entry
index, `di` the current directory. A non-last component descends into
an existing sub-directory, and otherwise (slot absent or holding a
file) overwrites the slot with a fresh directory `Dir(dirs.len())`,
appends it, and descends (the `or_insert(File(u32::MAX))` immediately
overwritten collapses to this). The last component inserts `File(i)`
only when the slot is empty. -/
def insertPath (i : Nat) : List DirMap → Nat → List (List Nat) → List DirMap
  | dirs, _, [] => dirs
  | dirs, di, p :: rest =>
    let d := (dirs.getD di [])
    if rest.isEmpty then
      match lookupKey d p with
      | none => setNth dirs di (setKey d p (.file i))
      | some _ => dirs
    else
      match lookupKey d p with
      | some (.dir n) => insertPath i dirs n rest
      | _ =>
        let l := dirs.length
        insertPath i (setNth dirs di (setKey d p (.dir l)) ++ [[]]) l rest

/-- `name.split(|&c| c == b'/')`: split the byte sequence on `/` (47). -/
def splitSlash : List Nat → List (List Nat)
  | [] => [[]]
  | c :: cs =>
    if c = 47 then [] :: splitSlash cs
    else
      match splitSlash cs with
      | [] => [[c]]
      | p :: ps => (c :: p) :: ps

/-- The component list: split on `/`, keeping only non-empty pieces. -/
def components (name : List Nat) : List (List Nat) :=
  (splitSlash name).filter fun p => !p.isEmpty

/-- The tree-build loop of `Fs::new`: process the names in index order,
each walking from the root (index 0), starting from the singleton list
holding one empty root directory. -/
def buildDirs (names : List (List Nat)) : List DirMap :=
  (names.enum).foldl (fun dirs pr => insertPath pr.1 dirs 0 (components pr.2)) [[]]

/-- The mounted filesystem state `struct Fs` (the header fields inlined,
the backing file as a byte store). -/
structure Fs where
  store : Nat → Nat
  block_size : Nat
  file_count : Nat
  dirs : List DirMap

/-- `Fs::entry`: decode a 64-bit inode. `n = ino - 1` with u64 wrapping;
bit 63 set means `File(n as u32)` (valid when the index with bit 63
cleared is `< file_count`), clear means `Dir(n as u32)` (valid when
`n < dirs.len()`). -/
def Fs.entry (fs : Fs) (ino : Nat) : Option Node :=
  let n := (ino + (2 ^ 64 - 1)) % 2 ^ 64
  if n &&& 2 ^ 63 ≠ 0 then
    if n ^^^ 2 ^ 63 < fs.file_count then some (.file (n % 2 ^ 32)) else none
  else
    if n < fs.dirs.length then some (.dir (n % 2 ^ 32)) else none

/-- The entry record for index `n`, decoded straight from the store
(what `header.get(n, …)` yields when the I/O succeeds). -/
def Fs.entryAt (fs : Fs) (n : Nat) : Entry :=
  parse_entry ((List.range 12).map fun k => fs.store (16 + 12 * n + k))

/-- `Fs::new` assembled: the directory forest built from every entry's
resolved name, in index order. -/
def fsNew (store : Nat → Nat) (block_size file_count : Nat) : Fs :=
  let names := (List.range file_count).map fun i =>
    read_string store (parse_entry ((List.range 12).map fun k =>
      store (16 + 12 * i + k))).filename_addr
  { store, block_size, file_count, dirs := buildDirs names }

/-- `Filesystem::lookup` reduced to the node it resolves: the parent
inode must decode to a directory, and the name must be in its map;
`none` is the `ENOENT` reply. -/
def Fs.lookupNode (fs : Fs) (parent : Nat) (name : List Nat) : Option Node :=
  (fs.entry parent).bind fun v =>
    match v with
    | .dir n => lookupKey (fs.dirs.getD n []) name
    | .file _ => none

/-- `Filesystem::getattr` reduced to the node whose attributes are
returned; `none` is the `ENOENT` reply. -/
def Fs.getattrNode (fs : Fs) (ino : Nat) : Option Node :=
  fs.entry ino

/-- `Filesystem::read`: the inode must decode to a file; the transfer
length is `max (min (min (file_size - offset) size) 65536) 0` over
wide integers and the bytes come from the store at
`Entry::offset + offset`; `none` is the `ENOENT` reply. -/
def Fs.read (fs : Fs) (ino : Nat) (offset : Int) (size : Nat) : Option (List Nat) :=
  (fs.entry ino).bind fun v =>
    match v with
    | .file n =>
      let e := fs.entryAt n
      let offt : Int := (e.offset ⟨fs.block_size, fs.file_count⟩ : Nat) + offset
      let len : Int := max (min (min ((e.file_size : Int) - offset) (size : Int)) 65536) 0
      some ((List.range len.toNat).map fun k => fs.store (offt.toNat + k))
    | .dir _ => none

/-- One line of a directory listing as handed to `reply.add`: the inode
argument, the next-cursor (the `offset` argument), the kind flag and the
name bytes. -/
structure DirEntry where
  ino : Nat
  next : Nat
  isDir : Bool
  name : List Nat
deriving DecidableEq, Repr

/-- The consumer's reply buffer, abstracted to a capacity in entries:
`add` refuses (returns `true`, the buffer-full signal, without adding)
once the capacity is spent. -/
structure Sink where
  cap : Nat
  out : List DirEntry

def Sink.push (s : Sink) (e : DirEntry) : Sink × Bool :=
  if s.cap = 0 then (s, true)
  else ({ cap := s.cap - 1, out := s.out ++ [e] }, false)

/-- The name `.` = [46] and `..` = [46, 46]. -/
def dotName : List Nat := [46]
def dotDotName : List Nat := [46, 46]

/-- A child at name-order position `p`: `reply.add((p + 2), (p + 3),
v.to_ty(), k)` — the inode argument is the position-based `p + 2`. -/
def childEntry (p : Nat) (kv : List Nat × Node) : DirEntry :=
  { ino := p + 2, next := p + 3, isDir := kv.2.isDir, name := kv.1 }

/-- The child loop of `readdir`: emit until `reply.add` reports full,
then stop. -/
def emitChildren : List DirEntry → Sink → Sink
  | [], s => s
  | e :: rest, s =>
    match s.push e with
    | (s2, true) => s2
    | (s2, false) => emitChildren rest s2

/-- The `offset == 1` point of `readdir` onwards: try `..` (next-cursor
2, the directory's own inode), then the children from position 0. -/
def readdirDotDot (selfIno : Nat) (children : List DirEntry) (s : Sink) : Sink :=
  match s.push { ino := selfIno, next := 2, isDir := true, name := dotDotName } with
  | (s2, true) => s2
  | (s2, false) => emitChildren children s2

/-- The body of `readdir` after inode decoding, from resumption cursor
`off`: at 0 try `.` (next-cursor 1, own inode) and fall through to the
`..` point; at 1 start at the `..` point; at 2 or more emit the children from
position `off - 2`. -/
def readdirFrom (selfIno : Nat) (children : List DirEntry) (off : Nat) (s : Sink) : Sink :=
  if off = 0 then
    match s.push { ino := selfIno, next := 1, isDir := true, name := dotName } with
    | (s2, true) => s2
    | (s2, false) => readdirDotDot selfIno children s2
  else if off = 1 then
    readdirDotDot selfIno children s
  else
    emitChildren (children.drop (off - 2)) s

/-- The children of directory `n` as listing lines, in map (ascending
name) order. -/
def Fs.childEntries (fs : Fs) (n : Nat) : List DirEntry :=
  ((fs.dirs.getD n []).enum).map fun pr => childEntry pr.1 pr.2

/-- `Filesystem::readdir`: the inode must decode to a directory
(`none` is the `ENOENT` reply); one call with resumption cursor `off`
into a buffer of capacity `cap` returns the emitted lines. -/
def Fs.readdir (fs : Fs) (ino : Nat) (off cap : Nat) : Option (List DirEntry) :=
  (fs.entry ino).bind fun v =>
    match v with
    | .dir n =>
      some (readdirFrom (Node.dir n).to_ino (fs.childEntries n) off ⟨cap, []⟩).out
    | .file _ => none

/-- One step of the consumer's paging loop: on a failed call or an
empty result stop; otherwise keep the result and continue (`k`) from
the last emitted line's next-cursor. -/
def runStep (res : Option (List DirEntry)) (k : Nat → List DirEntry) : List DirEntry :=
  match res with
  | none => []
  | some out =>
    match out.getLast? with
    | none => []
    | some e => out ++ k e.next

/-- The consumer's paging loop: call `readdir` with the given capacity,
resume the next call at the last emitted line's next-cursor, stop on an
empty or failed call. -/
def runReaddir (fs : Fs) (ino : Nat) : Nat → List Nat → List DirEntry
  | _, [] => []
  | off, c :: cs => runStep (fs.readdir ino off c) fun t => runReaddir fs ino t cs

/-- A node reference is valid when its index is in range. -/
def Fs.validNode (fs : Fs) : Node → Prop
  | .file f => f < fs.file_count
  | .dir d => d < fs.dirs.length

/-- The full listing of a directory: `.`, `..`, then the children. -/
def allEntries (selfIno : Nat) (children : List DirEntry) : List DirEntry :=
  { ino := selfIno, next := 1, isDir := true, name := dotName } ::
  { ino := selfIno, next := 2, isDir := true, name := dotDotName } :: children

/-- Navigation reachability: the root directory is reachable, and any
node returned by looking a name up in a reachable directory is
reachable (lookup is the only handler that reveals new nodes; readdir
reveals the names fed back into lookup, and getattr/read only echo the
inode they are given). -/
inductive ReachNode (dirs : List DirMap) : Node → Prop where
  | root : ReachNode dirs (.dir 0)
  | child (n : Nat) (nm : List Nat) (w : Node) :
      ReachNode dirs (.dir n) → lookupKey (dirs.getD n []) nm = some w →
      ReachNode dirs w

/-- No directory of the forest holds a reference to file entry `i`. -/
def noFileRef (i : Nat) (dirs : List DirMap) : Prop :=
  ∀ d ∈ dirs, ∀ kv ∈ d, kv.2 ≠ Node.file i

/-- Three consecutive little-endian u32 fields read directly off the
store starting at absolute offset `a`. -/
def le32S (store : Nat → Nat) (a : Nat) : Nat :=
  store a + 2 ^ 8 * store (a + 1) + 2 ^ 16 * store (a + 2) + 2 ^ 24 * store (a + 3)

/-- A small concrete filesystem used to instantiate theorems: two file
entries, root holding file `a` and directory `b`, the latter holding
file `c`. -/
def fsW : Fs :=
  { store := fun _ => 7, block_size := 9, file_count := 2,
    dirs := [[([97], Node.file 0), ([98], Node.dir 1)], [([99], Node.file 1)]] }

section Lemmas

lemma getD_map_range (f : Nat → Nat) (n k : Nat) (h : k < n) :
    ((List.range n).map f).getD k 0 = f k := by
  rw [List.getD_eq_getElem?_getD, List.getElem?_map, List.getElem?_range h]
  rfl

lemma and63_zero (n : Nat) (h : n < 2 ^ 63) : n &&& 2 ^ 63 = 0 := by
  rw [Nat.and_two_pow, Nat.testBit_eq_false_of_lt h]
  simp

lemma and63_ne (n : Nat) (h1 : 2 ^ 63 ≤ n) (h2 : n < 2 ^ 64) : n &&& 2 ^ 63 ≠ 0 := by
  have ht : n.testBit 63 = true := by
    rw [Nat.testBit_to_div_mod]
    simp only [decide_eq_true_eq]
    omega
  rw [Nat.and_two_pow, ht]
  simp

lemma lor63 (m : Nat) (h : m < 2 ^ 63) : m ||| 2 ^ 63 = 2 ^ 63 + m := by
  apply Nat.eq_of_testBit_eq
  intro j
  rcases lt_trichotomy j 63 with hj | hj | hj
  · rw [Nat.testBit_lor, Nat.testBit_two_pow_add_gt hj,
      Nat.testBit_two_pow_of_ne (by omega), Bool.or_false]
  · subst hj
    rw [Nat.testBit_lor, Nat.testBit_two_pow_add_eq,
      Nat.testBit_eq_false_of_lt h, Nat.testBit_two_pow_self]
    rfl
  · have hm : m.testBit j = false := Nat.testBit_eq_false_of_lt (by
      calc m < 2 ^ 63 := h
        _ ≤ 2 ^ j := Nat.pow_le_pow_right (by norm_num) (by omega))
    have hs : (2 ^ 63 + m).testBit j = false := Nat.testBit_eq_false_of_lt (by
      have : (2 : Nat) ^ 64 ≤ 2 ^ j := Nat.pow_le_pow_right (by norm_num) (by omega)
      omega)
    rw [Nat.testBit_lor, hm, hs, Nat.testBit_two_pow_of_ne (by omega)]
    simp

lemma xor63 (m : Nat) (h : m < 2 ^ 63) : m ^^^ 2 ^ 63 = 2 ^ 63 + m := by
  apply Nat.eq_of_testBit_eq
  intro j
  rcases lt_trichotomy j 63 with hj | hj | hj
  · rw [Nat.testBit_xor, Nat.testBit_two_pow_add_gt hj,
      Nat.testBit_two_pow_of_ne (by omega), Bool.xor_false]
  · subst hj
    rw [Nat.testBit_xor, Nat.testBit_two_pow_add_eq,
      Nat.testBit_eq_false_of_lt h, Nat.testBit_two_pow_self]
    rfl
  · have hm : m.testBit j = false := Nat.testBit_eq_false_of_lt (by
      calc m < 2 ^ 63 := h
        _ ≤ 2 ^ j := Nat.pow_le_pow_right (by norm_num) (by omega))
    have hs : (2 ^ 63 + m).testBit j = false := Nat.testBit_eq_false_of_lt (by
      have : (2 : Nat) ^ 64 ≤ 2 ^ j := Nat.pow_le_pow_right (by norm_num) (by omega)
      omega)
    rw [Nat.testBit_xor, hm, hs, Nat.testBit_two_pow_of_ne (by omega)]
    simp

lemma xor63_sub (n : Nat) (h1 : 2 ^ 63 ≤ n) (h2 : n < 2 ^ 64) :
    n ^^^ 2 ^ 63 = n - 2 ^ 63 := by
  have h3 : n - 2 ^ 63 < 2 ^ 63 := by omega
  have h4 := xor63 (n - 2 ^ 63) h3
  have hn : n = (n - 2 ^ 63) ^^^ 2 ^ 63 := by omega
  calc n ^^^ 2 ^ 63 = ((n - 2 ^ 63) ^^^ 2 ^ 63) ^^^ 2 ^ 63 := by rw [← hn]
    _ = n - 2 ^ 63 := Nat.xor_cancel_right _ _

/-- Inverse direction of the inode bijection: a successful decode's
node encodes back to the inode and is valid. -/
lemma Fs.entry_to_ino (fs : Fs) (ino : Nat) (v : Node)
    (hN : fs.file_count ≤ 2 ^ 32) (hD : fs.dirs.length ≤ 2 ^ 32)
    (hino : ino < 2 ^ 64) (hv : fs.entry ino = some v) :
    v.to_ino = ino ∧ fs.validNode v := by
  set n := (ino + (2 ^ 64 - 1)) % 2 ^ 64 with hn
  have hn64 : n < 2 ^ 64 := Nat.mod_lt _ (by norm_num)
  rcases Nat.lt_or_ge n (2 ^ 63) with hlt | hge
  · have hb := and63_zero n hlt
    rw [Fs.entry] at hv
    rw [← hn] at hv
    rw [hb] at hv
    simp only [ne_eq, not_true_eq_false, if_false] at hv
    by_cases hrange : n < fs.dirs.length
    · rw [if_pos hrange] at hv
      obtain rfl : Node.dir (n % 2 ^ 32) = v := Option.some_injective _ hv
      constructor
      · rw [Node.to_ino, Nat.mod_eq_of_lt (by omega)]
        omega
      · rw [Fs.validNode, Nat.mod_eq_of_lt (by omega)]
        exact hrange
    · rw [if_neg hrange] at hv
      exact Option.noConfusion hv
  · have hb := and63_ne n hge hn64
    rw [Fs.entry] at hv
    rw [← hn] at hv
    rw [if_pos hb, xor63_sub n hge hn64] at hv
    by_cases hrange : n - 2 ^ 63 < fs.file_count
    · rw [if_pos hrange] at hv
      obtain rfl : Node.file (n % 2 ^ 32) = v := Option.some_injective _ hv
      have hmod : n % 2 ^ 32 = n - 2 ^ 63 := by omega
      constructor
      · rw [Node.to_ino, hmod, lor63 _ (by omega)]
        omega
      · rw [Fs.validNode, hmod]
        exact hrange
    · rw [if_neg hrange] at hv
      exact Option.noConfusion hv

lemma emitChildren_out (l : List DirEntry) (c : Nat) (o : List DirEntry) :
    (emitChildren l ⟨c, o⟩).out = o ++ l.take c := by
  induction l generalizing c o with
  | nil => simp [emitChildren]
  | cons e rest ih =>
    cases c with
    | zero => simp [emitChildren, Sink.push]
    | succ c2 =>
      simp only [emitChildren, Sink.push]
      norm_num
      rw [ih]
      simp

lemma readdirDotDot_out (selfIno : Nat) (children : List DirEntry) (c : Nat)
    (o : List DirEntry) :
    (readdirDotDot selfIno children ⟨c, o⟩).out =
      o ++ (({ ino := selfIno, next := 2, isDir := true, name := dotDotName } ::
        children).take c) := by
  cases c with
  | zero => simp [readdirDotDot, Sink.push]
  | succ c2 =>
    simp only [readdirDotDot, Sink.push]
    norm_num
    rw [emitChildren_out]
    simp

lemma readdirFrom_out (selfIno : Nat) (children : List DirEntry) (off cap : Nat) :
    (readdirFrom selfIno children off ⟨cap, []⟩).out =
      ((allEntries selfIno children).drop off).take cap := by
  rcases Nat.lt_or_ge off 2 with hoff | hoff
  · interval_cases off
    · cases cap with
      | zero => simp [readdirFrom, Sink.push, allEntries]
      | succ c2 =>
        simp only [readdirFrom, Sink.push]
        norm_num
        rw [readdirDotDot_out]
        simp [allEntries]
    · simp only [readdirFrom]
      norm_num
      rw [readdirDotDot_out]
      simp [allEntries]
  · obtain ⟨k, rfl⟩ : ∃ k, off = 2 + k := ⟨off - 2, by omega⟩
    simp only [readdirFrom]
    rw [if_neg (by omega), if_neg (by omega)]
    rw [emitChildren_out]
    rw [show 2 + k = k + 2 by omega]
    simp [allEntries, List.drop_succ_cons]

/-- One `readdir` call is exactly a take-after-drop page of the full
listing. -/
lemma Fs.readdir_eq (fs : Fs) (ino n : Nat) (hd : fs.entry ino = some (.dir n))
    (off cap : Nat) :
    fs.readdir ino off cap =
      some (((allEntries (Node.dir n).to_ino (fs.childEntries n)).drop off).take cap) := by
  rw [Fs.readdir, hd]
  simp only [Option.bind]
  rw [readdirFrom_out]

lemma drop_min (l : List DirEntry) (c : Nat) :
    l.drop (min c l.length) = l.drop c := by
  rcases Nat.le_total c l.length with h | h
  · rw [Nat.min_eq_left h]
  · rw [Nat.min_eq_right h, List.drop_eq_nil_of_le h, List.drop_eq_nil_of_le (le_refl _)]

lemma childEntries_getElem (fs : Fs) (n p : Nat) :
    (fs.childEntries n)[p]? = Option.map (childEntry p) (fs.dirs.getD n [])[p]? := by
  rw [Fs.childEntries, List.getElem?_map, List.getElem?_enum]
  cases h : (fs.dirs.getD n [])[p]? <;> simp [h, childEntry]

lemma childEntries_length (fs : Fs) (n : Nat) :
    (fs.childEntries n).length = (fs.dirs.getD n []).length := by
  simp [Fs.childEntries]

lemma allEntries_next (fs : Fs) (selfIno n : Nat) :
    ∀ q e, (allEntries selfIno (fs.childEntries n))[q]? = some e → e.next = q + 1 := by
  intro q e hq
  match q with
  | 0 => simp [allEntries] at hq; rw [← hq]
  | 1 => simp [allEntries] at hq; rw [← hq]
  | (p + 2) =>
    simp only [allEntries, List.getElem?_cons_succ] at hq
    rw [childEntries_getElem] at hq
    cases h : (fs.dirs.getD n [])[p]? with
    | none => rw [h] at hq; exact Option.noConfusion hq
    | some kv =>
      rw [h] at hq
      simp only [Option.map_some'] at hq
      obtain rfl : childEntry p kv = e := Option.some_injective _ hq
      simp [childEntry]

/-- The paging loop collects exactly the tail of the listing from the
start cursor, provided every buffer accepts at least one entry and
there are enough calls. -/
lemma runReaddir_drop (fs : Fs) (ino n : Nat) (hd : fs.entry ino = some (.dir n))
    (caps : List Nat) (hcaps : ∀ c ∈ caps, 1 ≤ c) :
    ∀ t, (allEntries (Node.dir n).to_ino (fs.childEntries n)).length - t < caps.length →
      runReaddir fs ino t caps =
        (allEntries (Node.dir n).to_ino (fs.childEntries n)).drop t := by
  set allE := allEntries (Node.dir n).to_ino (fs.childEntries n) with hallE
  induction caps with
  | nil =>
    intro t hlen
    simp at hlen
  | cons c cs ih =>
    intro t hlen
    have hc : 1 ≤ c := hcaps c (by simp)
    rw [runReaddir, Fs.readdir_eq fs ino n hd, ← hallE]
    by_cases hend : allE.length ≤ t
    · rw [List.drop_eq_nil_of_le hend]
      simp [runStep]
    · push_neg at hend
      set s := allE.drop t with hs
      have hslen : s.length = allE.length - t := by rw [hs, List.length_drop]
      have hsne : s ≠ [] := by
        intro h0
        rw [h0] at hslen
        simp at hslen
        omega
      set out := s.take c with hout
      have houtlen : out.length = min c s.length := by rw [hout, List.length_take]
      have houtpos : 0 < out.length := by
        rw [houtlen]
        have : 0 < s.length := List.length_pos.mpr hsne
        omega
      have houtne : out ≠ [] := by
        intro h0
        rw [h0] at houtpos
        simp at houtpos
      have hlast : ∃ e, out.getLast? = some e ∧ e.next = t + out.length := by
        rw [List.getLast?_eq_getElem?]
        have hidx : out.length - 1 < c := by omega
        have h1 : out[out.length - 1]? = s[out.length - 1]? := by
          rw [hout, List.getElem?_take, if_pos hidx]
        have h2 : s[out.length - 1]? = allE[t + (out.length - 1)]? := by
          rw [hs, List.getElem?_drop]
        have h3 : t + (out.length - 1) < allE.length := by
          rw [houtlen] at houtpos ⊢
          omega
        refine ⟨allE.get ⟨t + (out.length - 1), h3⟩, ?_, ?_⟩
        · rw [h1, h2]
          exact List.getElem?_eq_getElem h3
        · have := allEntries_next fs (Node.dir n).to_ino n (t + (out.length - 1))
            (allE.get ⟨t + (out.length - 1), h3⟩)
            (by rw [← hallE]; exact List.getElem?_eq_getElem h3)
          rw [this]
          omega
      obtain ⟨e, helast, henext⟩ := hlast
      rw [runStep]
      rw [helast]
      show out ++ runReaddir fs ino e.next cs = s
      rw [henext]
      have hih := ih (fun x hx => hcaps x (by simp [hx])) (t + out.length) (by
        simp only [List.length_cons] at hlen
        omega)
      rw [hih]
      have hdd : allE.drop (t + out.length) = s.drop out.length := by
        rw [hs, List.drop_drop]
      rw [hdd, hout, houtlen, drop_min, List.take_append_drop]

lemma components_nil_of_slash (name : List Nat) (h : ∀ c ∈ name, c = 47) :
    components name = [] := by
  induction name with
  | nil => rfl
  | cons c cs ih =>
    have hc : c = 47 := h c (by simp)
    subst hc
    have hstep : components (47 :: cs) = components cs := by
      rw [components, components, splitSlash, if_pos rfl, List.filter_cons]
      norm_num
    rw [hstep]
    exact ih fun x hx => h x (by simp [hx])

lemma getD_cases (dirs : List DirMap) (di : Nat) :
    dirs.getD di [] ∈ dirs ∨ dirs.getD di [] = [] := by
  by_cases h : di < dirs.length
  · left
    rw [List.getD_eq_getElem?_getD, List.getElem?_eq_getElem h]
    exact List.getElem_mem h
  · right
    rw [List.getD_eq_getElem?_getD, List.getElem?_eq_none (by omega)]
    rfl

lemma setKey_mem (d : DirMap) (p : List Nat) (v : Node) (kv : List Nat × Node)
    (h : kv ∈ setKey d p v) : kv ∈ d ∨ kv = (p, v) := by
  induction d with
  | nil =>
    rw [setKey] at h
    simp at h
    right
    exact h
  | cons hd tl ih =>
    rw [setKey] at h
    by_cases he : p = hd.1
    · rw [if_pos he] at h
      rcases List.mem_cons.mp h with h1 | h1
      · right; rw [h1, he]
      · left; exact List.mem_cons_of_mem _ h1
    · rw [if_neg he] at h
      by_cases hlt : keyLt p hd.1
      · rw [if_pos hlt] at h
        rcases List.mem_cons.mp h with h1 | h1
        · right; exact h1
        · left; exact h1
      · rw [if_neg hlt] at h
        rcases List.mem_cons.mp h with h1 | h1
        · left; exact List.mem_cons.mpr (Or.inl h1)
        · rcases ih h1 with h2 | h2
          · left; exact List.mem_cons_of_mem _ h2
          · right; exact h2

lemma lookupKey_mem (d : DirMap) (k : List Nat) (v : Node)
    (h : lookupKey d k = some v) : (k, v) ∈ d := by
  induction d with
  | nil => exact Option.noConfusion h
  | cons hd tl ih =>
    rw [lookupKey] at h
    by_cases he : k = hd.1
    · rw [if_pos he] at h
      obtain rfl : hd.2 = v := Option.some_injective _ h
      rw [he]
      exact List.mem_cons.mpr (Or.inl rfl)
    · rw [if_neg he] at h
      exact List.mem_cons_of_mem _ (ih h)

lemma noFileRef_set (i : Nat) (dirs : List DirMap) (di : Nat) (p : List Nat)
    (v : Node) (hv : v ≠ Node.file i) (h : noFileRef i dirs) :
    noFileRef i (setNth dirs di (setKey (dirs.getD di []) p v)) := by
  intro d hd kv hkv
  rcases List.mem_or_eq_of_mem_set hd with h1 | h1
  · exact h d h1 kv hkv
  · subst h1
    rcases setKey_mem _ _ _ _ hkv with h2 | h2
    · rcases getD_cases dirs di with h3 | h3
      · exact h _ h3 kv h2
      · rw [h3] at h2
        exact absurd h2 (List.not_mem_nil kv)
    · rw [h2]
      exact hv

lemma noFileRef_append_nil (i : Nat) (dirs : List DirMap) (h : noFileRef i dirs) :
    noFileRef i (dirs ++ [[]]) := by
  intro d hd kv hkv
  rcases List.mem_append.mp hd with h1 | h1
  · exact h d h1 kv hkv
  · have : d = [] := by simpa using h1
    rw [this] at hkv
    exact absurd hkv (List.not_mem_nil kv)

lemma noFileRef_insertPath (i j : Nat) (hij : j ≠ i) :
    ∀ (comps : List (List Nat)) (dirs : List DirMap) (di : Nat),
      noFileRef i dirs → noFileRef i (insertPath j dirs di comps) := by
  intro comps
  induction comps with
  | nil => intro dirs di h; exact h
  | cons p rest ih =>
    intro dirs di h
    by_cases hrest : rest = []
    · subst hrest
      cases hk : lookupKey (dirs.getD di []) p with
      | none =>
        rw [insertPath, if_pos List.isEmpty_nil, hk]
        exact noFileRef_set i dirs di p (.file j) (by
          intro hcontra
          injection hcontra with hji
          exact hij hji) h
      | some w =>
        rw [insertPath, if_pos List.isEmpty_nil, hk]
        exact h
    · have hne : rest.isEmpty = false := by
        cases rest with
        | nil => exact absurd rfl hrest
        | cons a b => rfl
      cases hk : lookupKey (dirs.getD di []) p with
      | none =>
        rw [insertPath, if_neg (by rw [hne]; simp), hk]
        exact ih _ _
          (noFileRef_append_nil i _ (noFileRef_set i dirs di p (.dir dirs.length) (by simp) h))
      | some w =>
        cases w with
        | dir m =>
          rw [insertPath, if_neg (by rw [hne]; simp), hk]
          exact ih _ _ h
        | file x =>
          rw [insertPath, if_neg (by rw [hne]; simp), hk]
          exact ih _ _
            (noFileRef_append_nil i _ (noFileRef_set i dirs di p (.dir dirs.length) (by simp) h))

lemma noFileRef_buildDirs (names : List (List Nat)) (i : Nat)
    (hi : ∀ nm, names[i]? = some nm → components nm = []) :
    noFileRef i (buildDirs names) := by
  have hgen : ∀ (l : List (Nat × List Nat)) (dirs : List DirMap),
      (∀ pr ∈ l, pr.1 = i → components pr.2 = []) → noFileRef i dirs →
      noFileRef i (l.foldl
        (fun dirs pr => insertPath pr.1 dirs 0 (components pr.2)) dirs) := by
    intro l
    induction l with
    | nil => intro dirs _ h; exact h
    | cons pr rest ih =>
      intro dirs hl h
      rw [List.foldl_cons]
      refine ih _ (fun q hq => hl q (List.mem_cons_of_mem _ hq)) ?_
      by_cases hpr : pr.1 = i
      · have hcomp : components pr.2 = [] := hl pr (by simp) hpr
        rw [hcomp]
        exact h
      · exact noFileRef_insertPath i pr.1 hpr _ dirs 0 h
  rw [buildDirs]
  refine hgen _ _ ?_ ?_
  · intro pr hpr hpri
    have hsome : names[pr.1]? = some pr.2 := by
      have hmk := List.mk_mem_enum_iff_getElem?.mp (by
        have hpair : (pr.1, pr.2) = pr := rfl
        rw [hpair]
        exact hpr)
      exact hmk
    rw [hpri] at hsome
    exact hi pr.2 hsome
  · intro d hd kv hkv
    have : d = [] := by simpa using hd
    rw [this] at hkv
    exact absurd hkv (List.not_mem_nil kv)

end Lemmas

/-- C7: `Header::load` on a successfully read 16-byte header fails with
`BadMagic` iff the first 8 bytes differ from the magic constant (checked
first); otherwise fails with `UnsupportedVersion` iff byte 8 differs from
the supported version; otherwise succeeds with block-size exponent byte 9
and file count the little-endian u32 at bytes 12..16; an I/O failure
yields the distinct `Other` error. -/
theorem claim_C7 (d : List Nat) (h16 : d.length = 16) :
    (Header.load (some d) = .error .badMagic ↔ d.take 8 ≠ MAGIC)
    ∧ (d.take 8 = MAGIC →
        (Header.load (some d) = .error .unsupportedVersion ↔ d.getD 8 0 ≠ VERSION))
    ∧ (d.take 8 = MAGIC → d.getD 8 0 = VERSION →
        Header.load (some d) = .ok ⟨d.getD 9 0, le32At d 12⟩)
    ∧ Header.load none = .error .other := by
  refine ⟨?_, ?_, ?_, rfl⟩
  · by_cases hm : d.take 8 = MAGIC
    · by_cases hv : d.getD 8 0 = VERSION <;>
        rw [List.getD_eq_getElem?_getD] at hv <;>
        simp [Header.load, parse_header, hm, hv]
    · simp [Header.load, parse_header, hm]
  · intro hm
    by_cases hv : d.getD 8 0 = VERSION <;>
      rw [List.getD_eq_getElem?_getD] at hv <;>
      simp [Header.load, parse_header, hm, hv]
  · intro hm hv
    rw [List.getD_eq_getElem?_getD] at hv
    simp [Header.load, parse_header, hm, hv, List.getD_eq_getElem?_getD]

theorem claim_C7_witness :
    Header.load (some [78, 114, 82, 100, 79, 110, 108, 121, 0, 9, 0, 0, 2, 0, 0, 0]) =
      .ok ⟨9, 2⟩ := by
  have h := claim_C7 [78, 114, 82, 100, 79, 110, 108, 121, 0, 9, 0, 0, 2, 0, 0, 0] rfl
  have h2 := h.2.2.1 rfl rfl
  simpa [le32At] using h2

/-- C8: `Header::get(index)` returns `None` iff `index ≥ N`; for
`index < N` it performs one seek to `16 + index*12` and one 12-byte
read, and (the I/O succeeding) returns the entry whose three fields are
the consecutive little-endian u32s of those bytes — decoding never
fails once the bytes are obtained. -/
theorem claim_C8 (h : Header) (st : Sio) (i : Nat) :
    (h.get st i = none ↔ h.file_count ≤ i)
    ∧ (i < h.file_count →
        h.get st i =
          some ({ filename_addr := le32S st.store (16 + 12 * i),
                  block_addr := le32S st.store (16 + 12 * i + 4),
                  file_size := le32S st.store (16 + 12 * i + 8) },
                { st with pos := 16 + 12 * i + 12 },
                [.seek (16 + 12 * i), .read 12])) := by
  constructor
  · simp [Header.get]
  · intro hi
    simp only [Header.get, hi, if_pos, getEntry, Sio.readBytes, parse_entry, le32At]
    rw [getD_map_range _ _ _ (by norm_num), getD_map_range _ _ _ (by norm_num),
      getD_map_range _ _ _ (by norm_num), getD_map_range _ _ _ (by norm_num),
      getD_map_range _ _ _ (by norm_num), getD_map_range _ _ _ (by norm_num),
      getD_map_range _ _ _ (by norm_num), getD_map_range _ _ _ (by norm_num),
      getD_map_range _ _ _ (by norm_num), getD_map_range _ _ _ (by norm_num),
      getD_map_range _ _ _ (by norm_num), getD_map_range _ _ _ (by norm_num)]
    simp only [le32S]
    norm_num

theorem claim_C8_witness :
    Header.get ⟨9, 2⟩ ⟨fun _ => 7, 0⟩ 0 =
      some ({ filename_addr := 117901063, block_addr := 117901063,
              file_size := 117901063 },
            { store := fun _ => 7, pos := 28 }, [.seek 16, .read 12]) := by
  have h := (claim_C8 ⟨9, 2⟩ ⟨fun _ => 7, 0⟩ 0).2 (by norm_num)
  simpa [le32S] using h

/-- C4: the inode mapping round-trips — decoding the encoded inode of
any valid `Dir(d)` or `File(f)` yields the node back, `Dir(0)` encodes
to inode 1 — and any 64-bit inode that is not the encoding of a valid
node (inode 0 included) decodes to not-found, upon which lookup,
getattr, read and readdir all signal NotFound. -/
theorem claim_C4 (fs : Fs)
    (hN : fs.file_count ≤ 2 ^ 32) (hD : fs.dirs.length ≤ 2 ^ 32) :
    (∀ d, d < fs.dirs.length → fs.entry (Node.dir d).to_ino = some (.dir d))
    ∧ (∀ f, f < fs.file_count → fs.entry (Node.file f).to_ino = some (.file f))
    ∧ (Node.dir 0).to_ino = 1
    ∧ (∀ ino, ino < 2 ^ 64 → (∀ v, fs.validNode v → v.to_ino ≠ ino) →
        fs.entry ino = none)
    ∧ fs.entry 0 = none
    ∧ (∀ ino name offset size off cap, fs.entry ino = none →
        fs.lookupNode ino name = none ∧ fs.getattrNode ino = none
        ∧ fs.read ino offset size = none ∧ fs.readdir ino off cap = none) := by
  refine ⟨?_, ?_, rfl, ?_, ?_, ?_⟩
  · intro d hd
    have hd32 : d < 2 ^ 32 := lt_of_lt_of_le hd hD
    have hn : (1 + d + (2 ^ 64 - 1)) % 2 ^ 64 = d := by omega
    rw [Fs.entry]
    simp only [Node.to_ino, hn]
    rw [and63_zero d (by omega)]
    simp only [ne_eq, not_true_eq_false, if_false]
    rw [if_pos hd, Nat.mod_eq_of_lt hd32]
  · intro f hf
    have hf32 : f < 2 ^ 32 := lt_of_lt_of_le hf hN
    have hlor : f ||| 2 ^ 63 = 2 ^ 63 + f := lor63 f (by omega)
    have hn : (1 + (2 ^ 63 + f) + (2 ^ 64 - 1)) % 2 ^ 64 = 2 ^ 63 + f := by omega
    rw [Fs.entry]
    simp only [Node.to_ino, hlor, hn]
    rw [if_pos (and63_ne (2 ^ 63 + f) (by omega) (by omega)),
      xor63_sub (2 ^ 63 + f) (by omega) (by omega)]
    have h1 : 2 ^ 63 + f - 2 ^ 63 = f := by omega
    rw [h1, if_pos hf]
    have h2 : (2 ^ 63 + f) % 2 ^ 32 = f := by omega
    rw [h2]
  · intro ino hino hnv
    by_contra hsome
    obtain ⟨v, hv⟩ := Option.ne_none_iff_exists'.mp hsome
    obtain ⟨heq, hval⟩ := Fs.entry_to_ino fs ino v hN hD hino hv
    exact hnv v hval heq
  · rw [Fs.entry]
    have hn : (0 + (2 ^ 64 - 1)) % 2 ^ 64 = 2 ^ 64 - 1 := by norm_num
    rw [hn]
    rw [if_pos (and63_ne _ (by norm_num) (by norm_num)),
      xor63_sub _ (by norm_num) (by norm_num)]
    rw [if_neg (by omega)]
  · intro ino name offset size off cap hnone
    refine ⟨?_, ?_, ?_, ?_⟩
    · rw [Fs.lookupNode, hnone]
      rfl
    · rw [Fs.getattrNode]
      exact hnone
    · rw [Fs.read, hnone]
      rfl
    · rw [Fs.readdir, hnone]
      rfl

theorem claim_C4_witness :
    Fs.entry fsW (Node.dir 0).to_ino = some (Node.dir 0)
    ∧ Fs.entry fsW (Node.file 1).to_ino = some (Node.file 1)
    ∧ Fs.entry fsW 0 = none := by
  have h := claim_C4 fsW (by norm_num [fsW]) (by norm_num [fsW])
  exact ⟨h.1 0 (by norm_num [fsW]), h.2.1 1 (by norm_num [fsW]), h.2.2.2.2.1⟩

/-- C5: for a valid directory inode, `readdir` at cursor 0 first emits
`.` with directory kind, next-cursor 1 and the directory's own inode;
at cursor 0 or 1 it then emits `..` with directory kind, next-cursor 2
and again the directory's own inode (never a true parent). -/
theorem claim_C5 (fs : Fs) (ino n cap : Nat) (hd : fs.entry ino = some (.dir n))
    (hN : fs.file_count ≤ 2 ^ 32) (hD : fs.dirs.length ≤ 2 ^ 32)
    (hino : ino < 2 ^ 64) :
    (1 ≤ cap → ∃ rest, fs.readdir ino 0 cap =
        some ({ ino := ino, next := 1, isDir := true, name := dotName } :: rest))
    ∧ (2 ≤ cap → ∃ rest, fs.readdir ino 0 cap =
        some ({ ino := ino, next := 1, isDir := true, name := dotName } ::
              { ino := ino, next := 2, isDir := true, name := dotDotName } :: rest))
    ∧ (1 ≤ cap → ∃ rest, fs.readdir ino 1 cap =
        some ({ ino := ino, next := 2, isDir := true, name := dotDotName } :: rest)) := by
  have hio : (Node.dir n).to_ino = ino :=
    (Fs.entry_to_ino fs ino (.dir n) hN hD hino hd).1
  refine ⟨?_, ?_, ?_⟩
  · intro hc
    obtain ⟨c, rfl⟩ : ∃ c, cap = c + 1 := ⟨cap - 1, by omega⟩
    rw [Fs.readdir_eq fs ino n hd, hio]
    refine ⟨({ ino := ino, next := 2, isDir := true, name := dotDotName } ::
      fs.childEntries n).take c, ?_⟩
    simp [allEntries]
  · intro hc
    obtain ⟨c, rfl⟩ : ∃ c, cap = c + 2 := ⟨cap - 2, by omega⟩
    rw [Fs.readdir_eq fs ino n hd, hio]
    refine ⟨(fs.childEntries n).take c, ?_⟩
    simp [allEntries]
  · intro hc
    obtain ⟨c, rfl⟩ : ∃ c, cap = c + 1 := ⟨cap - 1, by omega⟩
    rw [Fs.readdir_eq fs ino n hd, hio]
    refine ⟨(fs.childEntries n).take c, ?_⟩
    simp [allEntries]

theorem claim_C5_witness :
    ∃ rest, Fs.readdir fsW 1 0 2 =
      some ({ ino := 1, next := 1, isDir := true, name := dotName } ::
            { ino := 1, next := 2, isDir := true, name := dotDotName } :: rest) :=
  (claim_C5 fsW 1 0 2 (by decide) (by decide) (by decide) (by decide)).2.1 (by decide)

/-- C1 (amended): for a valid directory inode and any sequence of
per-call buffer capacities, each at least 1 and numerous enough,
concatenating the sequential `readdir` calls resumed at each previous
next-cursor from cursor 0 reproduces exactly `.`, `..`, then every
child once in map (ascending name) order; the child at position `p`
carries its name, its kind, the position-based inode `p + 2` (not the
child node's own encoded inode) and next-cursor `p + 3`. -/
theorem claim_C1 (fs : Fs) (ino n : Nat) (caps : List Nat)
    (hd : fs.entry ino = some (.dir n))
    (hN : fs.file_count ≤ 2 ^ 32) (hD : fs.dirs.length ≤ 2 ^ 32)
    (hino : ino < 2 ^ 64)
    (hcaps : ∀ c ∈ caps, 1 ≤ c)
    (hlen : (fs.dirs.getD n []).length + 2 < caps.length) :
    runReaddir fs ino 0 caps =
      { ino := ino, next := 1, isDir := true, name := dotName } ::
      { ino := ino, next := 2, isDir := true, name := dotDotName } ::
      fs.childEntries n
    ∧ (∀ (p : Nat) (kv : List Nat × Node), (fs.dirs.getD n [])[p]? = some kv →
        (fs.childEntries n)[p]? =
          some ({ ino := p + 2, next := p + 3, isDir := kv.2.isDir, name := kv.1 } : DirEntry))
    ∧ (fs.childEntries n).map (fun e => e.name) =
        (fs.dirs.getD n []).map Prod.fst
    ∧ (List.Pairwise (fun a b => keyLt a.1 b.1 = true) (fs.dirs.getD n []) →
        List.Pairwise (fun a b => keyLt a.name b.name = true) (fs.childEntries n)) := by
  have hio : (Node.dir n).to_ino = ino :=
    (Fs.entry_to_ino fs ino (.dir n) hN hD hino hd).1
  have hnames : (fs.childEntries n).map (fun e => e.name) =
      (fs.dirs.getD n []).map Prod.fst := by
    rw [Fs.childEntries, List.map_map]
    have hfun : ((fun e : DirEntry => e.name) ∘
        fun pr : Nat × (List Nat × Node) => childEntry pr.1 pr.2) =
        fun pr : Nat × (List Nat × Node) => pr.2.1 := rfl
    rw [hfun]
    have hsplit : ((fs.dirs.getD n []).enum.map fun pr => pr.2.1) =
        ((fs.dirs.getD n []).enum.map Prod.snd).map Prod.fst := by
      rw [List.map_map]
      rfl
    rw [hsplit, List.enum_map_snd]
  refine ⟨?_, ?_, hnames, ?_⟩
  · have h := runReaddir_drop fs ino n hd caps hcaps 0 (by
      simp only [allEntries, List.length_cons, childEntries_length, Nat.sub_zero]
      omega)
    rw [List.drop_zero] at h
    rw [h, allEntries, hio]
  · intro p kv hkv
    rw [childEntries_getElem, hkv]
    simp [childEntry]
  · intro hsort
    refine (List.pairwise_map (f := fun e : DirEntry => e.name)
      (R := fun x y => keyLt x y = true) (l := fs.childEntries n)).mp ?_
    rw [hnames]
    exact List.pairwise_map.mpr hsort

theorem claim_C1_counterexample :
    Fs.readdir fsW 1 0 3 =
      some [{ ino := 1, next := 1, isDir := true, name := dotName },
            { ino := 1, next := 2, isDir := true, name := dotDotName },
            { ino := 2, next := 3, isDir := false, name := [97] }]
    ∧ lookupKey (fsW.dirs.getD 0 []) [97] = some (Node.file 0)
    ∧ (Node.file 0).to_ino ≠ 2 := by
  refine ⟨by decide, by decide, by decide⟩

theorem claim_C1_witness :
    runReaddir fsW 1 0 [1, 1, 1, 1, 1] =
      [{ ino := 1, next := 1, isDir := true, name := dotName },
       { ino := 1, next := 2, isDir := true, name := dotDotName },
       { ino := 2, next := 3, isDir := false, name := [97] },
       { ino := 3, next := 4, isDir := true, name := [98] }] := by
  have h := (claim_C1 fsW 1 0 [1, 1, 1, 1, 1] (by decide) (by decide) (by decide)
      (by decide) (by decide) (by decide)).1
  rw [h]
  decide

theorem claim_C6_counterexample :
    Entry.offset ⟨0, 2 ^ 31, 0⟩ ⟨33, 0⟩ = 0
    ∧ Entry.offset ⟨0, 2 ^ 31, 0⟩ ⟨33, 0⟩ ≠ 2 ^ 31 * 2 ^ 33 := by
  constructor
  · norm_num [Entry.offset, Nat.shiftLeft_eq]
  · norm_num [Entry.offset, Nat.shiftLeft_eq]

/-- C6 (amended): for a block-size exponent of at most 32 the content
start `block_address * 2^b` is computed exactly in the u64, and adding
any i64 request offset stays far inside the i128 range used for the
combined computation — for an exponent of 33 or more the u64 shift can
wrap (see the counterexample). -/
theorem claim_C6 (e : Entry) (h : Header) (off : Int)
    (hb : e.block_addr < 2 ^ 32) (hs : h.block_size ≤ 32)
    (ho1 : -(2 ^ 63) ≤ off) (ho2 : off < 2 ^ 63) :
    e.offset h = e.block_addr * 2 ^ h.block_size
    ∧ -(2 ^ 127) ≤ (e.offset h : Int) + off
    ∧ (e.offset h : Int) + off < 2 ^ 127 := by
  have hmod : h.block_size % 64 = h.block_size := Nat.mod_eq_of_lt (by omega)
  have hp : (2 : Nat) ^ h.block_size ≤ 2 ^ 32 := Nat.pow_le_pow_right (by norm_num) hs
  have h1 : e.block_addr * 2 ^ h.block_size < 2 ^ 64 := by
    calc e.block_addr * 2 ^ h.block_size ≤ e.block_addr * 2 ^ 32 :=
          Nat.mul_le_mul_left _ hp
      _ < 2 ^ 32 * 2 ^ 32 := by
          have := Nat.mul_lt_mul_of_lt_of_le hb (le_refl ((2 : Nat) ^ 32)) (by norm_num)
          simpa using this
      _ = 2 ^ 64 := by norm_num
  have hoff : e.offset h = e.block_addr * 2 ^ h.block_size := by
    rw [Entry.offset, hmod, Nat.shiftLeft_eq, Nat.mod_eq_of_lt h1]
  refine ⟨hoff, ?_, ?_⟩
  · have : (0 : Int) ≤ (e.offset h : Int) := Int.natCast_nonneg _
    omega
  · have : (e.offset h : Int) < 2 ^ 64 := by
      rw [hoff]
      exact_mod_cast h1
    omega

theorem claim_C6_witness :
    Entry.offset ⟨0, 5, 0⟩ ⟨9, 0⟩ = 2560
    ∧ -(2 ^ 127) ≤ (Entry.offset ⟨0, 5, 0⟩ ⟨9, 0⟩ : Int) + 100
    ∧ (Entry.offset ⟨0, 5, 0⟩ ⟨9, 0⟩ : Int) + 100 < 2 ^ 127 := by
  have h := claim_C6 ⟨0, 5, 0⟩ ⟨9, 0⟩ 100 (by norm_num) (by norm_num)
    (by norm_num) (by norm_num)
  simpa using h

/-- C3: for a valid file inode with entry size `s`, a non-negative
request offset `o` and requested size `r`, `read` returns exactly
`min (max 0 (s - o)) r 65536` bytes taken from the file's content
starting at offset `o` (`(s - o).toNat` being `max 0 (s - o)`); for
`o ≥ s` it returns zero bytes without signalling an error. -/
theorem claim_C3 (fs : Fs) (ino n : Nat) (offset : Int) (size : Nat)
    (hf : fs.entry ino = some (.file n)) (ho : 0 ≤ offset) :
    fs.read ino offset size =
      some ((List.range
          (min (min (((fs.entryAt n).file_size : Int) - offset).toNat size) 65536)).map
        fun k => fs.store
          ((fs.entryAt n).offset ⟨fs.block_size, fs.file_count⟩ + offset.toNat + k))
    ∧ (((fs.entryAt n).file_size : Int) ≤ offset → fs.read ino offset size = some []) := by
  have hlen : (max (min (min (((fs.entryAt n).file_size : Int) - offset) (size : Int)) 65536) 0).toNat
      = min (min (((fs.entryAt n).file_size : Int) - offset).toNat size) 65536 := by
    omega
  have hofft : (((fs.entryAt n).offset ⟨fs.block_size, fs.file_count⟩ : Nat) + offset).toNat
      = (fs.entryAt n).offset ⟨fs.block_size, fs.file_count⟩ + offset.toNat := by
    omega
  have hmain : fs.read ino offset size =
      some ((List.range
          (min (min (((fs.entryAt n).file_size : Int) - offset).toNat size) 65536)).map
        fun k => fs.store
          ((fs.entryAt n).offset ⟨fs.block_size, fs.file_count⟩ + offset.toNat + k)) := by
    rw [Fs.read, hf]
    simp only [Option.bind]
    rw [hlen, hofft]
  refine ⟨hmain, ?_⟩
  intro hpast
  rw [hmain]
  have : (((fs.entryAt n).file_size : Int) - offset).toNat = 0 := by omega
  rw [this]
  simp

theorem claim_C3_witness :
    fsW.read (Node.file 0).to_ino 0 5 = some [7, 7, 7, 7, 7] := by
  have h := (claim_C3 fsW (Node.file 0).to_ino 0 0 5 (by decide) (by decide)).1
  rw [h]
  decide

/-- C2: the directory tree builder obeys the per-entry rules — for a
non-last component an absent slot or a file slot is overwritten with a
fresh empty directory which is descended into (the previous file
association silently discarded), an existing directory is descended
into; the last component inserts `File(i)` only into an empty slot,
otherwise the entry is silently dropped; and the fixture
`["a/b", "a/b/c.txt"]` yields a directory `a/b` containing only the
file `c.txt` with entry index 1. -/
theorem claim_C2 :
    (∀ (dirs : List DirMap) (di i : Nat) (p : List Nat) (rest : List (List Nat)),
        rest ≠ [] → lookupKey (dirs.getD di []) p = none →
        insertPath i dirs di (p :: rest) =
          insertPath i (setNth dirs di
            (setKey (dirs.getD di []) p (.dir dirs.length)) ++ [[]]) dirs.length rest)
    ∧ (∀ (dirs : List DirMap) (di i m : Nat) (p : List Nat) (rest : List (List Nat)),
        rest ≠ [] → lookupKey (dirs.getD di []) p = some (.dir m) →
        insertPath i dirs di (p :: rest) = insertPath i dirs m rest)
    ∧ (∀ (dirs : List DirMap) (di i j : Nat) (p : List Nat) (rest : List (List Nat)),
        rest ≠ [] → lookupKey (dirs.getD di []) p = some (.file j) →
        insertPath i dirs di (p :: rest) =
          insertPath i (setNth dirs di
            (setKey (dirs.getD di []) p (.dir dirs.length)) ++ [[]]) dirs.length rest)
    ∧ (∀ (dirs : List DirMap) (di i : Nat) (p : List Nat),
        lookupKey (dirs.getD di []) p = none →
        insertPath i dirs di [p] = setNth dirs di (setKey (dirs.getD di []) p (.file i)))
    ∧ (∀ (dirs : List DirMap) (di i : Nat) (p : List Nat) (v : Node),
        lookupKey (dirs.getD di []) p = some v →
        insertPath i dirs di [p] = dirs)
    ∧ buildDirs [[97, 47, 98], [97, 47, 98, 47, 99, 46, 116, 120, 116]] =
        [[([97], Node.dir 1)], [([98], Node.dir 2)],
         [([99, 46, 116, 120, 116], Node.file 1)]] := by
  refine ⟨?_, ?_, ?_, ?_, ?_, by decide⟩
  · intro dirs di i p rest hrest habs
    rw [insertPath, if_neg (by simpa using hrest), habs]
  · intro dirs di i m p rest hrest hdir
    rw [insertPath, if_neg (by simpa using hrest), hdir]
  · intro dirs di i j p rest hrest hfile
    rw [insertPath, if_neg (by simpa using hrest), hfile]
  · intro dirs di i p habs
    rw [insertPath, if_pos List.isEmpty_nil, habs]
  · intro dirs di i p v hocc
    rw [insertPath, if_pos List.isEmpty_nil, hocc]

theorem claim_C2_witness :
    insertPath 0 [[]] 0 [[97]] = [[([97], Node.file 0)]] := by
  have h := (claim_C2).2.2.2.1 [[]] 0 0 [97] (by decide)
  rw [h]
  decide

/-- C10: an entry whose resolved name has no non-empty path component
(empty or all `/` bytes) adds nothing during tree construction — the
walk is a no-op, no directory of the built forest references
`File(i)`, so lookup never resolves to it, readdir never lists it, and
it is unreachable by navigation from the root. -/
theorem claim_C10 (names : List (List Nat)) (i : Nat) (name : List Nat)
    (hname : names[i]? = some name) (hslash : ∀ c ∈ name, c = 47) :
    components name = []
    ∧ (∀ (dirs : List DirMap) (di j : Nat), insertPath j dirs di (components name) = dirs)
    ∧ noFileRef i (buildDirs names)
    ∧ (∀ fs : Fs, fs.dirs = buildDirs names →
        (∀ ino nm, fs.lookupNode ino nm ≠ some (.file i))
        ∧ (∀ (n p : Nat) (kv : List Nat × Node),
            (fs.dirs.getD n [])[p]? = some kv → kv.2 ≠ Node.file i)
        ∧ ¬ ReachNode fs.dirs (.file i)) := by
  have hcomp : components name = [] := components_nil_of_slash name hslash
  have hnf : noFileRef i (buildDirs names) := by
    refine noFileRef_buildDirs names i ?_
    intro nm hnm
    rw [hname] at hnm
    obtain rfl : name = nm := Option.some_injective _ hnm
    exact hcomp
  refine ⟨hcomp, ?_, hnf, ?_⟩
  · intro dirs di j
    rw [hcomp, insertPath]
  · intro fs hfs
    have hnf2 : noFileRef i fs.dirs := by
      rw [hfs]
      exact hnf
    have hlk : ∀ n nm, lookupKey (fs.dirs.getD n []) nm ≠ some (.file i) := by
      intro n nm hcontra
      have hmem := lookupKey_mem _ _ _ hcontra
      rcases getD_cases fs.dirs n with h3 | h3
      · exact hnf2 _ h3 _ hmem rfl
      · rw [h3] at hmem
        exact absurd hmem (List.not_mem_nil _)
    refine ⟨?_, ?_, ?_⟩
    · intro ino nm hcontra
      rw [Fs.lookupNode] at hcontra
      cases he : fs.entry ino with
      | none => rw [he] at hcontra; exact Option.noConfusion hcontra
      | some v =>
        rw [he] at hcontra
        cases v with
        | file f => exact Option.noConfusion hcontra
        | dir n => exact hlk n nm hcontra
    · intro n p kv hkv
      rcases getD_cases fs.dirs n with h3 | h3
      · exact hnf2 _ h3 _ (List.getElem?_mem hkv)
      · rw [h3] at hkv
        exact Option.noConfusion hkv
    · intro hreach
      have hgen : ∀ v, ReachNode fs.dirs v → v ≠ Node.file i := by
        intro v hv
        induction hv with
        | root => simp
        | child n nm w hr hlkup ih =>
          intro hcontra
          rw [hcontra] at hlkup
          exact hlk n nm hlkup
      exact hgen _ hreach rfl

theorem claim_C10_witness :
    components [47, 47] = []
    ∧ noFileRef 1 (buildDirs [[97], [47, 47]]) := by
  have h := claim_C10 [[97], [47, 47]] 1 [47, 47] (by decide) (by decide)
  exact ⟨h.1, h.2.2.1⟩

lemma iterDrain_spec : ∀ (fuel : Nat) (it : Iter) (st : Sio),
    it.count - it.offset = fuel →
    (iterDrain fuel it st).length = fuel
    ∧ ∀ j, j < fuel → (iterDrain fuel it st)[j]? =
        some (parse_entry ((List.range 12).map fun k =>
          st.store (16 + 12 * (it.offset + j) + k))) := by
  intro fuel
  induction fuel with
  | zero =>
    intro it st hf
    exact ⟨rfl, fun j hj => absurd hj (Nat.not_lt_zero j)⟩
  | succ fuel ih =>
    intro it st hf
    have hlt : it.offset < it.count := by omega
    have hstep : iterDrain (fuel + 1) it st =
        parse_entry ((List.range 12).map fun k => st.store (16 + 12 * it.offset + k)) ::
        iterDrain fuel { offset := it.offset + 1, count := it.count }
          { store := st.store, pos := 16 + 12 * it.offset + 12 } := by
      rw [iterDrain, Iter.next, if_pos hlt]
      rfl
    obtain ⟨ihlen, ihget⟩ := ih { offset := it.offset + 1, count := it.count }
      { store := st.store, pos := 16 + 12 * it.offset + 12 } (by simp; omega)
    constructor
    · rw [hstep]
      simp [ihlen]
    · intro j hj
      rw [hstep]
      cases j with
      | zero => simp
      | succ j2 =>
        rw [List.getElem?_cons_succ]
        have hres := ihget j2 (by omega)
        simp only at hres
        rw [hres]
        have : it.offset + 1 + j2 = it.offset + (j2 + 1) := by omega
        rw [this]

/-- C9: the sequential iterator yields exactly `N` entries in ascending
index order, each decoding field-for-field identically to a direct
`Header::get` at the same index (the position-`i` item is the
little-endian decode of the 12 bytes at `16 + 12*i`); `nth` skips `n`
positions without reading the skipped records — its I/O trace is the
single seek+read of the target index. -/
theorem claim_C9 (h : Header) (st : Sio) :
    (h.iterAll st).length = h.file_count
    ∧ (∀ i : Nat, i < h.file_count →
        (h.iterAll st)[i]? =
          some (parse_entry ((List.range 12).map fun k => st.store (16 + 12 * i + k)))
        ∧ ∀ pos : Nat, Option.map Prod.fst (Header.get h ⟨st.store, pos⟩ i) =
            some (parse_entry ((List.range 12).map fun k => st.store (16 + 12 * i + k))))
    ∧ (∀ (it : Iter) (st2 : Sio) (n : Nat),
        it.offset + n < it.count → it.offset + n < 2 ^ 32 - 1 → n < 2 ^ 32 - 1 →
        it.nth st2 n =
          (some (parse_entry ((List.range 12).map fun k =>
             st2.store (16 + 12 * (it.offset + n) + k))),
           { offset := it.offset + n + 1, count := it.count },
           { store := st2.store, pos := 16 + 12 * (it.offset + n) + 12 },
           [.seek (16 + 12 * (it.offset + n)), .read 12])) := by
  obtain ⟨hlen, hget⟩ := iterDrain_spec h.file_count
    { offset := 0, count := h.file_count } { store := st.store, pos := 16 } (by simp)
  refine ⟨?_, ?_, ?_⟩
  · rw [Header.iterAll, Header.iter]
    simpa using hlen
  · intro i hi
    constructor
    · rw [Header.iterAll, Header.iter]
      have := hget i hi
      simpa using this
    · intro pos
      rw [Header.get, if_pos hi]
      rfl
  · intro it st2 n h1 h2 h3
    rw [Iter.nth]
    have hn2 : min n (2 ^ 32 - 1) = n := Nat.min_eq_left (by omega)
    rw [hn2]
    have hoff : min (it.offset + n) (2 ^ 32 - 1) = it.offset + n :=
      Nat.min_eq_left (by omega)
    rw [hoff, Iter.next]
    rw [if_pos (by simpa using h1)]
    rfl

theorem claim_C9_witness :
    (Header.iterAll ⟨9, 2⟩ ⟨fun _ => 7, 0⟩).length = 2
    ∧ Iter.nth ⟨0, 2⟩ ⟨fun _ => 7, 0⟩ 1 =
        (some ⟨117901063, 117901063, 117901063⟩, ⟨2, 2⟩,
         ⟨fun _ => 7, 40⟩, [.seek 28, .read 12]) := by
  have hA := (claim_C9 ⟨9, 2⟩ ⟨fun _ => 7, 0⟩).1
  have hB := (claim_C9 ⟨9, 2⟩ ⟨fun _ => 7, 0⟩).2.2 ⟨0, 2⟩ ⟨fun _ => 7, 0⟩ 1
    (by norm_num) (by norm_num) (by norm_num)
  refine ⟨hA, ?_⟩
  rw [hB]
  norm_num [parse_entry, le32At]

end Nrofs
